import Mathlib

/-!
Verification of the sentence-segmentation rule engine of `mawo_razdel`
(`src/mawo_razdel/syntagrus_patterns.py`).

Texts are modelled as `List Char` (code-point sequences, as the design
requires offsets to be code-point based).  The three compiled regular
expressions of `_compile_patterns` are embedded as explicit character-level
matchers with Python `re` semantics (leftmost match, greedy quantifiers,
`finditer` continuing from each match end).  Python's `\s`, `str.lower`,
`str.islower`, `str.isdigit` and the `\b` word boundary are modelled for the
ASCII and Cyrillic repertoire that this Russian-text engine operates on.
Floating point scores are modelled as exact rationals.
-/

/-- Whitespace as matched by Python's `\s` / `str.isspace` (ASCII whitespace,
file/group/record/unit separators, and the Unicode space characters). -/
def pyIsSpace (c : Char) : Bool :=
  c == ' ' || c == '\t' || c == '\n' || c == '\r' ||
  c.val == 11 || c.val == 12 ||
  c.val == 28 || c.val == 29 || c.val == 30 || c.val == 31 ||
  c.val == 0x85 || c.val == 0xA0 || c.val == 0x1680 ||
  (0x2000 ≤ c.val && c.val ≤ 0x200A) ||
  c.val == 0x2028 || c.val == 0x2029 || c.val == 0x202F ||
  c.val == 0x205F || c.val == 0x3000

/-- Upper-case Cyrillic letters `А`-`Я` plus `Ё` (the regex class `[А-ЯЁ]`). -/
def isUpperCyr (c : Char) : Bool :=
  (0x410 ≤ c.val && c.val ≤ 0x42F) || c.val == 0x401

/-- Lower-case Cyrillic letters `а`-`я` plus `ё` (the regex class `[а-яё]`). -/
def isLowerCyr (c : Char) : Bool :=
  (0x430 ≤ c.val && c.val ≤ 0x44F) || c.val == 0x451

/-- Word characters for Python's `\b`, restricted to the ASCII plus Cyrillic
repertoire the engine operates on: ASCII alphanumerics, `_`, and the
Unicode Cyrillic block U+0400..U+04FF. -/
def isWordChar (c : Char) : Bool :=
  c.isAlphanum || c == '_' || (0x400 ≤ c.val && c.val ≤ 0x4FF)

/-- Python `str.lower` on the ASCII plus Cyrillic repertoire. -/
def pyToLowerChar (c : Char) : Char :=
  if 'A' ≤ c && c ≤ 'Z' then Char.ofNat (c.toNat + 32)
  else if 0x410 ≤ c.val && c.val ≤ 0x42F then Char.ofNat (c.toNat + 32)
  else if c.val == 0x401 then Char.ofNat 0x451
  else c

/-- Python `str.lower` lifted to texts. -/
def pyToLower (l : List Char) : List Char := l.map pyToLowerChar

/-- Python `c.islower()` on the ASCII plus Cyrillic repertoire. -/
def pyIsLower (c : Char) : Bool :=
  ('a' ≤ c && c ≤ 'z') || isLowerCyr c

/-- Python `str.strip()`: remove leading whitespace, then trailing
whitespace. -/
def pyStrip (l : List Char) : List Char :=
  ((l.dropWhile pyIsSpace).reverse.dropWhile pyIsSpace).reverse

/-- Python slicing `l[a:b]` for natural bounds (clamping beyond the end,
empty when `b ≤ a`), as used with the in-range indices of this engine. -/
def pySlice (l : List Char) (a b : Nat) : List Char :=
  (l.drop a).take (b - a)

/-- `SynTagRusPatterns.ABBREVIATIONS`: abbreviations that do not end a
sentence.  Python stores them in a `set`; only membership is ever used, so a
list with exact-equality membership is an equivalent model. -/
def ABBREVIATIONS : List (List Char) :=
  [ -- Географические
    "г", "гг", "г-н", "г-жа",
    "ул", "пр", "пл", "пер", "просп", "наб",
    "д", "дом", "корп", "стр", "кв",
    "обл", "р-н", "п", "с", "дер", "пос",
    -- Научные степени и звания
    "акад", "проф", "доц", "к", "канд", "докт",
    "м", "н", "мл", "ст",
    -- Титулы
    "им", "ген", "полк", "подп", "лейт", "кап",
    -- Временные
    "в", "вв", "р", "руб", "коп",
    "ч", "час", "мин", "сек",
    -- Общие сокращения
    "т", "тт", "пп", "рис", "илл", "табл",
    "см", "ср", "напр", "в т.ч", "и т.д", "и т.п", "и др",
    "др", "проч", "прим", "примеч",
    -- Измерения
    "кг", "мг", "ц", "л",
    "мм", "км", "га",
    "млн", "млрд", "тыс", "трлн",
    -- Организационные
    "о-во", "о-ва", "о-ние", "о-ния",
    "зам", "пом", "зав", "нач",
    -- Прочие
    "etc", "et al", "ibid", "op cit",
    "англ", "нем", "франц", "итал", "исп" ].map String.data

/-- Length of the maximal run of characters satisfying `p` starting at
position `i` of `s` (how a greedy `X+` / `X*` consumes characters). -/
def runLen (p : Char → Bool) (s : List Char) (i : Nat) : Nat :=
  ((s.drop i).takeWhile p).length

/-- The regex class `[.!?]`. -/
def isEndPunct (c : Char) : Bool := c == '.' || c == '!' || c == '?'

/-- The regex class `[!?]`. -/
def isExclQuest (c : Char) : Bool := c == '!' || c == '?'

/-- The lookahead class `[А-ЯЁ«"'(]` of the `sentence_end_capital` rule
(U+0022 is `"`, U+0027 is the apostrophe). -/
def isAfterBoundaryClass (c : Char) : Bool :=
  isUpperCyr c || c == '«' || c.val == 34 || c.val == 39 || c == '('

/-- `\s+(?=[А-ЯЁ«"'(])` anchored at `j`: a nonempty greedy whitespace run
whose following character exists and lies in the lookahead class.  (Only the
maximal run can satisfy the lookahead, because every shorter run is followed
by a whitespace character, which is not in the class.) -/
def wsThenClass (s : List Char) (j : Nat) : Option Nat :=
  if runLen pyIsSpace s j = 0 then none
  else
    match s[j + runLen pyIsSpace s j]? with
    | some c => if isAfterBoundaryClass c then some (j + runLen pyIsSpace s j) else none
    | none => none

/-- `\s+` anchored at `j`: a nonempty greedy whitespace run; the match ends
after the maximal run. -/
def wsRunEnd (s : List Char) (j : Nat) : Option Nat :=
  if runLen pyIsSpace s j = 0 then none
  else some (j + runLen pyIsSpace s j)

/-- Index of the last `'\n'` of a list, if any. -/
def lastNewlineIdx : List Char → Option Nat
  | [] => none
  | c :: cs =>
    match lastNewlineIdx cs with
    | some k => some (k + 1)
    | none => if c == '\n' then some 0 else none

/-- `\s*\n\s*\n` anchored at `j`.  All consumed characters are whitespace, so
a match lives inside the maximal whitespace run starting at `j`; Python's
backtracking binds the two `\n` to the last two newlines of that run, so the
match ends one past the run's last newline, and a match exists iff the run
contains at least two newlines. -/
def doubleNewlineEnd (s : List Char) (j : Nat) : Option Nat :=
  if ((s.drop j).takeWhile pyIsSpace).count '\n' < 2 then none
  else
    match lastNewlineIdx ((s.drop j).takeWhile pyIsSpace) with
    | some k => some (j + k + 1)
    | none => none

/-- The rule regex `[.!?]+\s+(?=[А-ЯЁ«"'(])` matched at exactly position
`i`; returns the match end.  A shorter punctuation run cannot match (it
would require `\s` on a punctuation character), so only the maximal run
is tried. -/
def matchSentenceEndCapital (s : List Char) (i : Nat) : Option Nat :=
  if runLen isEndPunct s i = 0 then none
  else wsThenClass s (i + runLen isEndPunct s i)

/-- The rule regex `[.!?]+\s*\n\s*\n` matched at exactly position `i`. -/
def matchParagraphEnd (s : List Char) (i : Nat) : Option Nat :=
  if runLen isEndPunct s i = 0 then none
  else doubleNewlineEnd s (i + runLen isEndPunct s i)

/-- The rule regex `[!?]+\s+` matched at exactly position `i`. -/
def matchQuestionExclamation (s : List Char) (i : Nat) : Option Nat :=
  if runLen isExclQuest s i = 0 then none
  else wsRunEnd s (i + runLen isExclQuest s i)

/-- The three compiled rule patterns of `_compile_patterns`. -/
inductive RulePattern
  | sentence_end_capital
  | paragraph_end
  | question_exclamation
deriving DecidableEq

/-- Matching semantics of each compiled pattern. -/
def RulePattern.matchAt : RulePattern → List Char → Nat → Option Nat
  | .sentence_end_capital => matchSentenceEndCapital
  | .paragraph_end => matchParagraphEnd
  | .question_exclamation => matchQuestionExclamation

/-- The `SegmentationRule` dataclass. -/
structure SegmentationRule where
  name : String
  pattern : RulePattern
  is_boundary : Bool
  priority : Nat
  description : String
deriving DecidableEq

/-- The rule table built by `_compile_patterns`. -/
def compiled_rules : List SegmentationRule :=
  [ ⟨"sentence_end_capital", .sentence_end_capital, true, 50,
      "Sentence end + capital letter"⟩,
    ⟨"paragraph_end", .paragraph_end, true, 45,
      "Sentence end + paragraph break"⟩,
    ⟨"question_exclamation", .question_exclamation, true, 40,
      "Question or exclamation mark"⟩ ]

/-- The engine instance: the state `_compile_patterns` installs.  The other
compiled patterns (`abbr_pattern`, `initials_pattern`) are fixed and appear
below as standalone functions. -/
structure SynTagRusPatterns where
  rules : List SegmentationRule
deriving DecidableEq

/-- `SynTagRusPatterns()`: construction compiles the fixed rule table. -/
def SynTagRusPatterns.init : SynTagRusPatterns := ⟨compiled_rules⟩

/-- Stable insertion of a rule into a descending-priority list (the rule is
placed after every rule of greater-or-equal priority, as Python's stable
`sorted(..., reverse=True)` does). -/
def insertRuleDesc (x : SegmentationRule) : List SegmentationRule → List SegmentationRule
  | [] => [x]
  | y :: ys => if y.priority < x.priority then x :: y :: ys else y :: insertRuleDesc x ys

/-- `sorted(self.rules, key=lambda r: r.priority, reverse=True)` (stable). -/
def sortRulesDesc : List SegmentationRule → List SegmentationRule
  | [] => []
  | x :: xs => insertRuleDesc x (sortRulesDesc xs)

/-- Leftmost match of `m` in `s` with start position ≥ `i`; returns
`(start, end)`.  `fuel` is called with `s.length + 1 - i`, enough to try
every position up to and including `s.length`. -/
def firstMatchFromFuel (m : List Char → Nat → Option Nat) (s : List Char) :
    Nat → Nat → Option (Nat × Nat)
  | _, 0 => none
  | i, fuel + 1 =>
    if s.length < i then none
    else
      match m s i with
      | some e => some (i, e)
      | none => firstMatchFromFuel m s (i + 1) fuel

/-- The ends of the successive non-overlapping matches of `m` in `s`
(`pattern.finditer(text)` with `match.end()` taken), scanning from `i`;
after a match the scan resumes at its end (or one further for an empty
match, as CPython does). -/
def finditerGo (m : List Char → Nat → Option Nat) (s : List Char) :
    Nat → Nat → List Nat
  | _, 0 => []
  | i, fuel + 1 =>
    match firstMatchFromFuel m s i (s.length + 1 - i) with
    | none => []
    | some (st, en) =>
      en :: finditerGo m s (if st < en then en else st + 1) fuel

/-- All match ends of `pattern.finditer(text)`. -/
def finditerEnds (m : List Char → Nat → Option Nat) (s : List Char) : List Nat :=
  finditerGo m s 0 (s.length + 1)

/-- `is_abbreviation(text, pos)`: is the dot at position `pos` part of an
abbreviation?  Scans back 1..10 characters before `pos`, lower-cases,
strips, and tests membership in `ABBREVIATIONS`.  (Python rejects `pos <= 0`
and `pos >= len(text)`; the caller's `pos - 1` for `pos = 0` reaches Python
`-1`, also rejected, and is the same as truncated `0 - 1 = 0` here.) -/
def is_abbreviation (text : List Char) (pos : Nat) : Bool :=
  if pos = 0 || text.length ≤ pos then false
  else
    (List.range' 1 (min 10 pos)).any fun look_back =>
      ABBREVIATIONS.contains (pyStrip (pyToLower (pySlice text (pos - look_back) pos)))

/-- `ctx[i]` is an upper-case Cyrillic letter immediately followed by a
dot (`[А-ЯЁ]\.` at `i`). -/
def upperDotAt (ctx : List Char) (i : Nat) : Bool :=
  match ctx[i]?, ctx[i + 1]? with
  | some c, some d => isUpperCyr c && d == '.'
  | _, _ => false

/-- Python's `\b` immediately before position `i`, for a match whose first
character is a word character: true at the start of the text or after a
non-word character. -/
def wordStartBoundary (ctx : List Char) (i : Nat) : Bool :=
  match i with
  | 0 => true
  | i' + 1 =>
    match ctx[i']? with
    | some c => !isWordChar c
    | none => true

/-- `[А-ЯЁ][а-яё]+\b` at `j`: a capitalized word.  The trailing `\b` holds
for some nonempty prefix of the lower-case run iff some `t` in `1..run`
is followed by a non-word character or the end of the text. -/
def surnameTailAt (ctx : List Char) (j : Nat) : Bool :=
  match ctx[j]? with
  | some c =>
    isUpperCyr c &&
    (List.range' 1 (runLen isLowerCyr ctx (j + 1))).any fun t =>
      match ctx[j + 1 + t]? with
      | some d => !isWordChar d
      | none => true
  | none => false

/-- `\s*` at `p` followed by a match of `f`: since `\s*` can consume any
prefix of the whitespace run at `p`, a continuation exists iff `f` holds at
`p + a` for some `a` in `0..run`. -/
def afterOptionalWs (ctx : List Char) (p : Nat) (f : Nat → Bool) : Bool :=
  (List.range (runLen pyIsSpace ctx p + 1)).any fun a => f (p + a)

/-- A match of `initials_pattern` = `\b[А-ЯЁ]\.\s*(?:[А-ЯЁ]\.\s*)?[А-ЯЁ][а-яё]+\b`
starting exactly at position `i` (existence semantics, which is what
`re.search` converted to `bool` observes). -/
def initialsMatchAt (ctx : List Char) (i : Nat) : Bool :=
  wordStartBoundary ctx i && upperDotAt ctx i &&
  afterOptionalWs ctx (i + 2) fun j =>
    surnameTailAt ctx j ||
    (upperDotAt ctx j && afterOptionalWs ctx (j + 2) fun k => surnameTailAt ctx k)

/-- `bool(initials_pattern.search(ctx))`. -/
def initialsSearch (ctx : List Char) : Bool :=
  (List.range (ctx.length + 1)).any fun i => initialsMatchAt ctx i

/-- `is_initials_context(text, pos)`: search the `initials_pattern` inside
the window `text[max(0, pos-20) : min(len(text), pos+20)]`. -/
def is_initials_context (text : List Char) (pos : Nat) : Bool :=
  initialsSearch (pySlice text (pos - 20) (min text.length (pos + 20)))

/-- `_is_blocked_boundary(text, pos)`: abbreviation check (on `pos - 1`),
then initials check, then decimal-adjacency check. -/
def is_blocked_boundary (text : List Char) (pos : Nat) : Bool :=
  if is_abbreviation text (pos - 1) then true
  else if is_initials_context text pos then true
  else if 0 < pos && pos < text.length then
    match text[pos - 1]?, text[pos]? with
    | some a, some b => a.isDigit && b.isDigit
    | _, _ => false
  else false

/-- Strictly-sorted duplicate-free insertion (used to model
`sorted(set(boundaries))`, which is exactly the strictly ascending
enumeration of the collected positions). -/
def insertSorted (x : Nat) : List Nat → List Nat
  | [] => [x]
  | y :: ys =>
    if x < y then x :: y :: ys
    else if x = y then y :: ys
    else y :: insertSorted x ys

/-- `sorted(set(l))` as a strictly ascending duplicate-free list. -/
def sortedDedup : List Nat → List Nat
  | [] => []
  | x :: xs => insertSorted x (sortedDedup xs)

/-- `find_sentence_boundaries(text)`: apply the rules in descending priority
order, collect the end of every match of a boundary rule that is not
blocked, then sort and deduplicate. -/
def find_sentence_boundaries (P : SynTagRusPatterns) (text : List Char) : List Nat :=
  sortedDedup
    ((sortRulesDesc P.rules).foldl
      (fun acc rule =>
        (finditerEnds rule.pattern.matchAt text).foldl
          (fun acc2 pos =>
            if rule.is_boundary then
              if is_blocked_boundary text pos then acc2 else acc2 ++ [pos]
            else acc2)
          acc)
      [])

/-- The unblocked match ends contributed by one rule (what the inner loop
of `find_sentence_boundaries` appends for that rule). -/
def ruleCands (text : List Char) (r : SegmentationRule) : List Nat :=
  if r.is_boundary then
    (finditerEnds r.pattern.matchAt text).filter fun pos => !is_blocked_boundary text pos
  else []

/-- The concatenated contributions of a rule list, in order. -/
def candidatesAll (text : List Char) : List SegmentationRule → List Nat
  | [] => []
  | r :: rs => ruleCands text r ++ candidatesAll text rs

/-- One literal alternative of `abbr_pattern` matched at `i` (the
alternatives are `re.escape`d, hence literal). -/
def abbrAltAt (s : List Char) (i : Nat) (ab : List Char) : Bool :=
  pySlice s i (i + ab.length) == ab && s[i + ab.length]? == some '.'

/-- `bool(abbr_pattern.search(s))` where
`abbr_pattern = \b(abbr₁|abbr₂|...)\.`; every alternative starts with a
letter, so the leading `\b` is a word-start boundary. -/
def abbrSearch (s : List Char) : Bool :=
  (List.range (s.length + 1)).any fun i =>
    wordStartBoundary s i && ABBREVIATIONS.any fun ab => abbrAltAt s i ab

/-- `_split_by_boundaries` loop with explicit `start`. -/
def split_go (text : List Char) (start : Nat) : List Nat → List (List Char)
  | [] =>
    if start < text.length then
      if pyStrip (pySlice text start text.length) = [] then []
      else [pyStrip (pySlice text start text.length)]
    else []
  | b :: bs =>
    if pyStrip (pySlice text start b) = [] then split_go text b bs
    else pyStrip (pySlice text start b) :: split_go text b bs

/-- `_split_by_boundaries(text, boundaries)`: cut at each boundary, strip
each piece, drop empty pieces, and append the final piece after the last
boundary. -/
def split_by_boundaries (text : List Char) (boundaries : List Nat) : List (List Char) :=
  split_go text 0 boundaries

/-- `get_quality_score(text, boundaries)`: `0.0` for an empty boundary list,
otherwise `max(0.0, 1.0 - penalties)` with additive penalties per sentence.
Python floats are modelled as exact rationals. -/
def get_quality_score (text : List Char) (boundaries : List Nat) : ℚ :=
  if boundaries = [] then 0
  else
    max 0 (1 -
      (split_by_boundaries text boundaries).foldl
        (fun penalties sent =>
          let sent2 := pyStrip sent
          let p1 := if sent2.length < 3 then penalties + 0.1 else penalties
          let p2 := if (match sent2 with | c :: _ => pyIsLower c | [] => false)
                    then p1 + 0.15 else p1
          if sent2.length < 10 && abbrSearch sent2 then p2 + 0.2 else p2)
        0)

/-- `get_syntagrus_patterns()` with the module-level cache
`_global_patterns` made explicit: the function maps the cache state to the
returned instance and the new cache state. -/
def get_syntagrus_patterns (global_patterns : Option SynTagRusPatterns) :
    SynTagRusPatterns × Option SynTagRusPatterns :=
  match global_patterns with
  | none => (SynTagRusPatterns.init, some SynTagRusPatterns.init)
  | some p => (p, some p)

/-- The per-sentence penalty exactly as the specification words it: `0.1`
for a piece shorter than 3 characters, `0.15` for a piece starting with a
lower-case letter, `0.2` for a piece shorter than 10 characters containing
a known-abbreviation-plus-period match. -/
def quality_penalty (sent : List Char) : ℚ :=
  (if sent.length < 3 then 0.1 else 0) +
  (if (match sent with | c :: _ => pyIsLower c | [] => false) then 0.15 else 0) +
  (if sent.length < 10 && abbrSearch sent then 0.2 else 0)

/-- Test text for the abbreviation-blocking bug: a rule candidate fires
after `"г. "` (offset 10) and is not blocked. -/
def c1text : List Char := "В 1999 г. Пушкин уехал.".data

/-- Test text of the spec's abbreviation non-split property. -/
def c2text : List Char := "Он родился в 1799 г. в Москве.".data

/-- Test text of the spec's initials non-split property. -/
def c3text : List Char := "А. С. Пушкин - великий русский поэт.".data

/-- Test text of the spec's multi-sentence split property. -/
def c6text : List Char := "Первое. Второе. Третье.".data

/-- Test text of the spec's decimal non-split property. -/
def c7text : List Char := "Число равно 3.14 и больше нуля.".data

/-! ## List infrastructure -/

/-- Every in-range element of `l.takeWhile p` is the corresponding element
of `l` and satisfies `p`. -/
theorem takeWhile_getElem?_sat (p : Char → Bool) :
    ∀ (l : List Char) (k : Nat) (c : Char),
      (l.takeWhile p)[k]? = some c → l[k]? = some c ∧ p c = true := by
  intro l
  induction l with
  | nil => intro k c h; simp [List.takeWhile] at h
  | cons a t ih =>
    intro k c h
    by_cases hp : p a
    · rw [List.takeWhile_cons_of_pos hp] at h
      cases k with
      | zero =>
        simp at h
        subst h
        exact ⟨by simp, hp⟩
      | succ k' =>
        simp only [List.getElem?_cons_succ] at h ⊢
        exact ih k' c h
    · rw [List.takeWhile_cons_of_neg hp] at h
      simp at h

/-- `runLen` counts at most the remaining characters. -/
theorem runLen_add_le (p : Char → Bool) (s : List Char) (i : Nat)
    (h : i ≤ s.length) : i + runLen p s i ≤ s.length := by
  have h1 : (((s.drop i).takeWhile p)).length ≤ (s.drop i).length :=
    List.Sublist.length_le (List.takeWhile_sublist p)
  have h2 : (s.drop i).length = s.length - i := List.length_drop i s
  unfold runLen
  omega

/-- Characters inside the run satisfy the predicate. -/
theorem runLen_sat (p : Char → Bool) (s : List Char) (i k : Nat)
    (h : k < runLen p s i) : ∃ c, s[i + k]? = some c ∧ p c = true := by
  unfold runLen at h
  obtain ⟨c, hc⟩ : ∃ c, ((s.drop i).takeWhile p)[k]? = some c := by
    exact ⟨_, List.getElem?_eq_getElem h⟩
  obtain ⟨hdrop, hp⟩ := takeWhile_getElem?_sat p (s.drop i) k c hc
  refine ⟨c, ?_, hp⟩
  rw [List.getElem?_drop] at hdrop
  exact hdrop

/-- The last-newline index points at a `'\n'`. -/
theorem lastNewlineIdx_spec :
    ∀ (l : List Char) (k : Nat), lastNewlineIdx l = some k → l[k]? = some '\n' := by
  intro l
  induction l with
  | nil => intro k h; simp [lastNewlineIdx] at h
  | cons a t ih =>
    intro k h
    unfold lastNewlineIdx at h
    cases htail : lastNewlineIdx t with
    | some k' =>
      rw [htail] at h
      simp at h
      subst h
      simpa using ih k' htail
    | none =>
      rw [htail] at h
      by_cases ha : a == '\n'
      · simp [ha] at h
        subst h
        simp
        exact beq_iff_eq.mp ha
      · simp [ha] at h

/-! ## Strictly sorted deduplication (`sorted(set(...))`) -/

theorem mem_insertSorted (x y : Nat) (l : List Nat) :
    y ∈ insertSorted x l ↔ y = x ∨ y ∈ l := by
  induction l with
  | nil => simp [insertSorted]
  | cons a t ih =>
    unfold insertSorted
    by_cases h1 : x < a
    · simp [h1]
    · by_cases h2 : x = a
      · subst h2
        simp [h1]
      · simp only [if_neg h1, if_neg h2, List.mem_cons, ih]
        tauto

theorem sorted_insertSorted (x : Nat) (l : List Nat)
    (h : List.Sorted (· < ·) l) : List.Sorted (· < ·) (insertSorted x l) := by
  induction l with
  | nil => simp [insertSorted]
  | cons a t ih =>
    rw [List.sorted_cons] at h
    obtain ⟨ha, ht⟩ := h
    unfold insertSorted
    by_cases h1 : x < a
    · rw [if_pos h1, List.sorted_cons]
      refine ⟨?_, List.sorted_cons.mpr ⟨ha, ht⟩⟩
      intro b hb
      rcases List.mem_cons.mp hb with rfl | hb
      · exact h1
      · exact h1.trans (ha b hb)
    · by_cases h2 : x = a
      · rw [if_neg h1, if_pos h2]
        exact List.sorted_cons.mpr ⟨ha, ht⟩
      · rw [if_neg h1, if_neg h2, List.sorted_cons]
        refine ⟨?_, ih ht⟩
        intro b hb
        rcases (mem_insertSorted x b t).mp hb with rfl | hb
        · omega
        · exact ha b hb

theorem mem_sortedDedup (l : List Nat) (x : Nat) :
    x ∈ sortedDedup l ↔ x ∈ l := by
  induction l with
  | nil => simp [sortedDedup]
  | cons a t ih =>
    unfold sortedDedup
    rw [mem_insertSorted, ih]
    simp

theorem sorted_sortedDedup (l : List Nat) :
    List.Sorted (· < ·) (sortedDedup l) := by
  induction l with
  | nil => simp [sortedDedup]
  | cons a t ih => exact sorted_insertSorted a _ ih

/-- Two strictly sorted lists with the same members are equal. -/
theorem sorted_ext :
    ∀ (l₁ l₂ : List Nat), List.Sorted (· < ·) l₁ → List.Sorted (· < ·) l₂ →
      (∀ x, x ∈ l₁ ↔ x ∈ l₂) → l₁ = l₂ := by
  intro l₁
  induction l₁ with
  | nil =>
    intro l₂ _ _ hmem
    cases l₂ with
    | nil => rfl
    | cons b t₂ => exact absurd ((hmem b).mpr (List.mem_cons_self b t₂)) (by simp)
  | cons a t ih =>
    intro l₂ h₁ h₂ hmem
    cases l₂ with
    | nil => exact absurd ((hmem a).mp (List.mem_cons_self a t)) (by simp)
    | cons b t₂ =>
      rw [List.sorted_cons] at h₁ h₂
      obtain ⟨ha, ht⟩ := h₁
      obtain ⟨hb, ht₂⟩ := h₂
      have hab : a = b := by
        rcases List.mem_cons.mp ((hmem a).mp (List.mem_cons_self a t)) with h | h
        · exact h
        · rcases List.mem_cons.mp ((hmem b).mpr (List.mem_cons_self b t₂)) with h' | h'
          · exact h'.symm
          · exact absurd (hb a h) (by have := ha b h'; omega)
      subst hab
      have : t = t₂ := by
        refine ih t₂ ht ht₂ ?_
        intro x
        constructor
        · intro hx
          rcases List.mem_cons.mp ((hmem x).mp (List.mem_cons_of_mem a hx)) with h | h
          · exact absurd (ha x hx) (by omega)
          · exact h
        · intro hx
          rcases List.mem_cons.mp ((hmem x).mpr (List.mem_cons_of_mem a hx)) with h | h
          · exact absurd (hb x hx) (by omega)
          · exact h
      rw [this]

/-! ## Match ends land just after whitespace -/

theorem wsThenClass_spec (s : List Char) (j e : Nat)
    (h : wsThenClass s j = some e) :
    j < e ∧ e < s.length ∧ ∃ c, s[e - 1]? = some c ∧ pyIsSpace c = true := by
  unfold wsThenClass at h
  by_cases h0 : runLen pyIsSpace s j = 0
  · simp [h0] at h
  · rw [if_neg h0] at h
    cases hk : s[j + runLen pyIsSpace s j]? with
    | none => rw [hk] at h; simp at h
    | some c =>
      rw [hk] at h
      change (if isAfterBoundaryClass c = true then some (j + runLen pyIsSpace s j)
              else none) = some e at h
      by_cases hc : isAfterBoundaryClass c = true
      · rw [if_pos hc] at h
        have he : e = j + runLen pyIsSpace s j := by
          simpa using h.symm
        subst he
        have hlt : j + runLen pyIsSpace s j < s.length := by
          by_contra hge
          rw [List.getElem?_eq_none (by omega)] at hk
          exact Option.noConfusion hk
        refine ⟨by omega, hlt, ?_⟩
        obtain ⟨c', hc', hp'⟩ :=
          runLen_sat pyIsSpace s j (runLen pyIsSpace s j - 1) (by omega)
        refine ⟨c', ?_, hp'⟩
        have : j + (runLen pyIsSpace s j - 1) = j + runLen pyIsSpace s j - 1 := by omega
        rwa [this] at hc'
      · rw [if_neg hc] at h
        exact Option.noConfusion h

theorem wsRunEnd_spec (s : List Char) (j e : Nat) (hj : j ≤ s.length)
    (h : wsRunEnd s j = some e) :
    j < e ∧ e ≤ s.length ∧ ∃ c, s[e - 1]? = some c ∧ pyIsSpace c = true := by
  unfold wsRunEnd at h
  by_cases h0 : runLen pyIsSpace s j = 0
  · simp [h0] at h
  · rw [if_neg h0] at h
    have he : e = j + runLen pyIsSpace s j := by simpa using h.symm
    subst he
    refine ⟨by omega, runLen_add_le pyIsSpace s j hj, ?_⟩
    obtain ⟨c', hc', hp'⟩ :=
      runLen_sat pyIsSpace s j (runLen pyIsSpace s j - 1) (by omega)
    refine ⟨c', ?_, hp'⟩
    have : j + (runLen pyIsSpace s j - 1) = j + runLen pyIsSpace s j - 1 := by omega
    rwa [this] at hc'

theorem doubleNewlineEnd_spec (s : List Char) (j e : Nat) (hj : j ≤ s.length)
    (h : doubleNewlineEnd s j = some e) :
    j < e ∧ e ≤ s.length ∧ ∃ c, s[e - 1]? = some c ∧ pyIsSpace c = true := by
  unfold doubleNewlineEnd at h
  by_cases h0 : ((s.drop j).takeWhile pyIsSpace).count '\n' < 2
  · simp [h0] at h
  · rw [if_neg h0] at h
    cases hk : lastNewlineIdx ((s.drop j).takeWhile pyIsSpace) with
    | none => rw [hk] at h; exact Option.noConfusion h
    | some k =>
      rw [hk] at h
      have he : e = j + k + 1 := by simpa using h.symm
      subst he
      have hnl := lastNewlineIdx_spec _ k hk
      have hklt : k < runLen pyIsSpace s j := by
        unfold runLen
        by_contra hge
        rw [List.getElem?_eq_none (by omega)] at hnl
        exact Option.noConfusion hnl
      obtain ⟨c', hc', hp'⟩ := runLen_sat pyIsSpace s j k hklt
      refine ⟨by omega, ?_, ⟨c', by simpa using hc', hp'⟩⟩
      have := runLen_add_le pyIsSpace s j hj
      omega

/-- Every successful rule match, started in range, ends strictly after its
start, within the text, and right after a whitespace character. -/
theorem rulePattern_end_spec (rp : RulePattern) (s : List Char) (i e : Nat)
    (hi : i ≤ s.length) (h : rp.matchAt s i = some e) :
    i < e ∧ e ≤ s.length ∧ ∃ c, s[e - 1]? = some c ∧ pyIsSpace c = true := by
  cases rp with
  | sentence_end_capital =>
    simp only [RulePattern.matchAt] at h
    unfold matchSentenceEndCapital at h
    by_cases h0 : runLen isEndPunct s i = 0
    · simp [h0] at h
    · rw [if_neg h0] at h
      obtain ⟨h1, h2, h3⟩ := wsThenClass_spec s _ e h
      exact ⟨by omega, by omega, h3⟩
  | paragraph_end =>
    simp only [RulePattern.matchAt] at h
    unfold matchParagraphEnd at h
    by_cases h0 : runLen isEndPunct s i = 0
    · simp [h0] at h
    · rw [if_neg h0] at h
      have hj : i + runLen isEndPunct s i ≤ s.length := runLen_add_le _ s i hi
      obtain ⟨h1, h2, h3⟩ := doubleNewlineEnd_spec s _ e hj h
      exact ⟨by omega, h2, h3⟩
  | question_exclamation =>
    simp only [RulePattern.matchAt] at h
    unfold matchQuestionExclamation at h
    by_cases h0 : runLen isExclQuest s i = 0
    · simp [h0] at h
    · rw [if_neg h0] at h
      have hj : i + runLen isExclQuest s i ≤ s.length := runLen_add_le _ s i hi
      obtain ⟨h1, h2, h3⟩ := wsRunEnd_spec s _ e hj h
      exact ⟨by omega, h2, h3⟩

/-! ## Soundness of the finditer scan -/

theorem firstMatchFromFuel_sound (m : List Char → Nat → Option Nat) (s : List Char) :
    ∀ (fuel i st en : Nat), firstMatchFromFuel m s i fuel = some (st, en) →
      st ≤ s.length ∧ m s st = some en := by
  intro fuel
  induction fuel with
  | zero => intro i st en h; simp [firstMatchFromFuel] at h
  | succ fuel ih =>
    intro i st en h
    unfold firstMatchFromFuel at h
    by_cases hle : s.length < i
    · rw [if_pos hle] at h; exact Option.noConfusion h
    · rw [if_neg hle] at h
      cases hm : m s i with
      | some e =>
        rw [hm] at h
        simp at h
        obtain ⟨rfl, rfl⟩ := h
        exact ⟨by omega, hm⟩
      | none =>
        rw [hm] at h
        exact ih (i + 1) st en h

theorem finditerGo_sound (m : List Char → Nat → Option Nat) (s : List Char) :
    ∀ (fuel i e : Nat), e ∈ finditerGo m s i fuel →
      ∃ st, st ≤ s.length ∧ m s st = some e := by
  intro fuel
  induction fuel with
  | zero => intro i e h; simp [finditerGo] at h
  | succ fuel ih =>
    intro i e h
    unfold finditerGo at h
    cases hm : firstMatchFromFuel m s i (s.length + 1 - i) with
    | none => rw [hm] at h; simp at h
    | some p =>
      obtain ⟨st, en⟩ := p
      rw [hm] at h
      rcases List.mem_cons.mp h with rfl | h
      · obtain ⟨h1, h2⟩ := firstMatchFromFuel_sound m s _ i st e hm
        exact ⟨st, h1, h2⟩
      · exact ih _ e h

theorem finditerEnds_sound (m : List Char → Nat → Option Nat) (s : List Char)
    (e : Nat) (h : e ∈ finditerEnds m s) :
    ∃ st, st ≤ s.length ∧ m s st = some e :=
  finditerGo_sound m s _ 0 e h

/-! ## Decomposing the candidate-collection loop -/

theorem innerFold_eq (text : List Char) (r : SegmentationRule)
    (l : List Nat) (acc : List Nat) :
    l.foldl
      (fun acc2 pos =>
        if r.is_boundary then
          if is_blocked_boundary text pos then acc2 else acc2 ++ [pos]
        else acc2)
      acc
    = acc ++
      (if r.is_boundary then l.filter (fun pos => !is_blocked_boundary text pos)
       else []) := by
  induction l generalizing acc with
  | nil => simp
  | cons a t ih =>
    simp only [List.foldl_cons]
    by_cases hb : r.is_boundary
    · by_cases hblk : is_blocked_boundary text a
      · rw [if_pos hb, if_pos hblk, ih, if_pos hb, List.filter_cons]
        simp [hblk, hb]
      · rw [if_pos hb, if_neg hblk, ih, if_pos hb, List.filter_cons]
        simp [hblk, hb]
    · rw [if_neg hb, ih, if_neg hb, if_neg hb]

theorem outerFold_eq (text : List Char) (rs : List SegmentationRule)
    (acc : List Nat) :
    rs.foldl
      (fun acc rule =>
        (finditerEnds rule.pattern.matchAt text).foldl
          (fun acc2 pos =>
            if rule.is_boundary then
              if is_blocked_boundary text pos then acc2 else acc2 ++ [pos]
            else acc2)
          acc)
      acc
    = acc ++ candidatesAll text rs := by
  induction rs generalizing acc with
  | nil => simp [candidatesAll]
  | cons r rest ih =>
    simp only [List.foldl_cons]
    rw [innerFold_eq, ih, candidatesAll, List.append_assoc]
    rfl

/-- `find_sentence_boundaries` is the sorted deduplication of the per-rule
candidate contributions. -/
theorem find_eq (P : SynTagRusPatterns) (text : List Char) :
    find_sentence_boundaries P text =
      sortedDedup (candidatesAll text (sortRulesDesc P.rules)) := by
  unfold find_sentence_boundaries
  rw [outerFold_eq]
  rfl

theorem mem_ruleCands (text : List Char) (r : SegmentationRule) (b : Nat) :
    b ∈ ruleCands text r ↔
      r.is_boundary = true ∧ is_blocked_boundary text b = false ∧
        b ∈ finditerEnds r.pattern.matchAt text := by
  unfold ruleCands
  by_cases hb : r.is_boundary
  · rw [if_pos hb]
    simp [List.mem_filter, hb]
    tauto
  · rw [if_neg hb]
    simp [hb]

theorem mem_candidatesAll (text : List Char) (rs : List SegmentationRule) (b : Nat) :
    b ∈ candidatesAll text rs ↔ ∃ r ∈ rs, b ∈ ruleCands text r := by
  induction rs with
  | nil => simp [candidatesAll]
  | cons r rest ih =>
    unfold candidatesAll
    simp [List.mem_append, ih]

theorem mem_insertRuleDesc (x r : SegmentationRule) (l : List SegmentationRule) :
    r ∈ insertRuleDesc x l ↔ r = x ∨ r ∈ l := by
  induction l with
  | nil => simp [insertRuleDesc]
  | cons a t ih =>
    unfold insertRuleDesc
    by_cases h1 : a.priority < x.priority
    · simp [h1]
    · simp only [if_neg h1, List.mem_cons, ih]
      tauto

theorem mem_sortRulesDesc (l : List SegmentationRule) (r : SegmentationRule) :
    r ∈ sortRulesDesc l ↔ r ∈ l := by
  induction l with
  | nil => simp [sortRulesDesc]
  | cons a t ih =>
    unfold sortRulesDesc
    rw [mem_insertRuleDesc, ih]
    simp

/-- Every returned boundary is an unblocked match end of one of the engine's
boundary rules. -/
theorem mem_find_sound (P : SynTagRusPatterns) (text : List Char) (b : Nat)
    (h : b ∈ find_sentence_boundaries P text) :
    is_blocked_boundary text b = false ∧
      ∃ r ∈ P.rules, r.is_boundary = true ∧
        b ∈ finditerEnds r.pattern.matchAt text := by
  rw [find_eq, mem_sortedDedup, mem_candidatesAll] at h
  obtain ⟨r, hr, hb⟩ := h
  rw [mem_ruleCands] at hb
  exact ⟨hb.2.1, r, (mem_sortRulesDesc _ r).mp hr, hb.1, hb.2.2⟩

/-! ## `str.strip` is idempotent -/

theorem dropWhile_head_false (p : Char → Bool) :
    ∀ (l : List Char) (c : Char) (t : List Char),
      l.dropWhile p = c :: t → p c = false := by
  intro l
  induction l with
  | nil => intro c t h; simp [List.dropWhile] at h
  | cons a rest ih =>
    intro c t h
    by_cases hp : p a
    · rw [List.dropWhile_cons_of_pos hp] at h
      exact ih c t h
    · rw [List.dropWhile_cons_of_neg hp] at h
      cases h
      simpa using hp

theorem dropWhile_eq_self_of_head (p : Char → Bool) (l : List Char)
    (h : ∀ c, l.head? = some c → p c = false) : l.dropWhile p = l := by
  cases l with
  | nil => rfl
  | cons a t =>
    have := h a rfl
    rw [List.dropWhile_cons_of_neg (by simp [this])]

theorem dropWhile_getLast? (p : Char → Bool) :
    ∀ (l : List Char), l.dropWhile p ≠ [] →
      (l.dropWhile p).getLast? = l.getLast? := by
  intro l
  induction l with
  | nil => intro h; simp [List.dropWhile] at h
  | cons a t ih =>
    intro h
    by_cases hp : p a
    · rw [List.dropWhile_cons_of_pos hp] at h ⊢
      have ht : t ≠ [] := by
        intro he
        subst he
        simp [List.dropWhile] at h
      cases t with
      | nil => exact absurd rfl ht
      | cons b t' => rw [ih h, List.getLast?_cons_cons]
    · rw [List.dropWhile_cons_of_neg hp]

/-- `pyStrip` is idempotent (Python's `strip` on already-stripped text). -/
theorem pyStrip_idem (l : List Char) : pyStrip (pyStrip l) = pyStrip l := by
  unfold pyStrip
  by_cases hb : (l.dropWhile pyIsSpace).reverse.dropWhile pyIsSpace = []
  · rw [hb]
    simp [List.dropWhile]
  · have hhead : ∀ c,
        ((l.dropWhile pyIsSpace).reverse.dropWhile pyIsSpace).reverse.head? = some c →
          pyIsSpace c = false := by
      intro c hc
      rw [List.head?_reverse] at hc
      rw [dropWhile_getLast? pyIsSpace _ hb, List.getLast?_reverse] at hc
      cases hd : l.dropWhile pyIsSpace with
      | nil => rw [hd] at hc; simp at hc
      | cons d t =>
        rw [hd] at hc
        simp at hc
        subst hc
        exact dropWhile_head_false pyIsSpace l _ _ hd
    rw [dropWhile_eq_self_of_head pyIsSpace _ hhead]
    rw [List.reverse_reverse]
    have hhead2 : ∀ c,
        ((l.dropWhile pyIsSpace).reverse.dropWhile pyIsSpace).head? = some c →
          pyIsSpace c = false := by
      intro c hc
      cases hd : (l.dropWhile pyIsSpace).reverse.dropWhile pyIsSpace with
      | nil => rw [hd] at hc; simp at hc
      | cons d t =>
        rw [hd] at hc
        simp at hc
        subst hc
        exact dropWhile_head_false pyIsSpace _ _ _ hd
    rw [dropWhile_eq_self_of_head pyIsSpace _ hhead2]

/-! ## Quality score decomposition -/

/-- One step of the penalty loop adds exactly the claimed per-sentence
penalty of the stripped piece. -/
theorem penalty_step (penalties : ℚ) (sent : List Char) :
    (let sent2 := pyStrip sent
     let p1 := if sent2.length < 3 then penalties + 0.1 else penalties
     let p2 := if (match sent2 with | c :: _ => pyIsLower c | [] => false)
               then p1 + 0.15 else p1
     if sent2.length < 10 && abbrSearch sent2 then p2 + 0.2 else p2)
    = penalties + quality_penalty (pyStrip sent) := by
  unfold quality_penalty
  simp only []
  split_ifs <;> ring

theorem penalty_foldl_eq (l : List (List Char)) (acc : ℚ) :
    l.foldl
      (fun penalties sent =>
        let sent2 := pyStrip sent
        let p1 := if sent2.length < 3 then penalties + 0.1 else penalties
        let p2 := if (match sent2 with | c :: _ => pyIsLower c | [] => false)
                  then p1 + 0.15 else p1
        if sent2.length < 10 && abbrSearch sent2 then p2 + 0.2 else p2)
      acc
    = acc + ((l.map fun sent => quality_penalty (pyStrip sent)).sum) := by
  induction l generalizing acc with
  | nil => simp
  | cons a t ih =>
    simp only [List.foldl_cons, List.map_cons, List.sum_cons]
    rw [penalty_step, ih]
    ring

/-- Every piece produced by `_split_by_boundaries` is a stripped slice. -/
theorem split_go_mem_strip (text : List Char) :
    ∀ (bs : List Nat) (start : Nat) (s : List Char),
      s ∈ split_go text start bs → ∃ a b, s = pyStrip (pySlice text a b) := by
  intro bs
  induction bs with
  | nil =>
    intro start s h
    unfold split_go at h
    by_cases h1 : start < text.length
    · rw [if_pos h1] at h
      by_cases h2 : pyStrip (pySlice text start text.length) = []
      · rw [if_pos h2] at h; simp at h
      · rw [if_neg h2] at h
        rcases List.mem_singleton.mp h with rfl
        exact ⟨start, text.length, rfl⟩
    · rw [if_neg h1] at h; simp at h
  | cons b rest ih =>
    intro start s h
    unfold split_go at h
    by_cases h2 : pyStrip (pySlice text start b) = []
    · rw [if_pos h2] at h
      exact ih b s h
    · rw [if_neg h2] at h
      rcases List.mem_cons.mp h with rfl | h
      · exact ⟨start, b, rfl⟩
      · exact ih b s h

theorem split_mem_stripped (text : List Char) (bs : List Nat) (s : List Char)
    (h : s ∈ split_by_boundaries text bs) : pyStrip s = s := by
  obtain ⟨a, b, rfl⟩ := split_go_mem_strip text bs 0 s h
  exact pyStrip_idem _

/-- `quality_penalty` is non-negative. -/
theorem quality_penalty_nonneg (sent : List Char) : 0 ≤ quality_penalty sent := by
  unfold quality_penalty
  split_ifs <;> norm_num

/-! ## Blocking facts -/

/-- Digit-adjacency forces `_is_blocked_boundary` to return `True`. -/
theorem blocked_of_digits (text : List Char) (p : Nat) (a b : Char)
    (hp : 0 < p) (hpa : text[p - 1]? = some a) (hpb : text[p]? = some b)
    (hda : a.isDigit = true) (hdb : b.isDigit = true) :
    is_blocked_boundary text p = true := by
  have hlen : p < text.length := by
    by_contra hc
    rw [List.getElem?_eq_none (by omega)] at hpb
    exact Option.noConfusion hpb
  unfold is_blocked_boundary
  by_cases habbr : is_abbreviation text (p - 1) = true
  · rw [if_pos habbr]
  · rw [if_neg habbr]
    by_cases hini : is_initials_context text p = true
    · rw [if_pos hini]
    · rw [if_neg hini]
      simp [hp, hlen, hpa, hpb, hda, hdb]

/-- A detected abbreviation at `pos - 1` forces `_is_blocked_boundary` to
return `True` (its first check). -/
theorem blocked_of_abbreviation (text : List Char) (p : Nat)
    (h : is_abbreviation text (p - 1) = true) :
    is_blocked_boundary text p = true := by
  unfold is_blocked_boundary
  rw [if_pos h]

/-- A blocked offset never appears in the result of
`find_sentence_boundaries`. -/
theorem blocked_not_mem_find (P : SynTagRusPatterns) (text : List Char) (p : Nat)
    (h : is_blocked_boundary text p = true) :
    p ∉ find_sentence_boundaries P text := by
  intro hmem
  have := (mem_find_sound P text p hmem).1
  rw [this] at h
  exact Bool.noConfusion h

/-! ## The claims -/

/-- Claim C1 (code bug): the claim says that a candidate whose preceding
word (the 1-10 character substring ending immediately before the triggering
punctuation, lower-cased and trimmed) is in `ABBREVIATIONS` is blocked and
absent from the result.  The code instead calls `is_abbreviation` with
`pos - 1`, the index of the final whitespace character of the match, so the
substrings it tests end at the punctuation itself (`"г."`, `"9 г."`, ...)
and never match the dot-free abbreviation set.  On
`"В 1999 г. Пушкин уехал."` the substring `"г"` (length 1) ends immediately
before the triggering `'.'` at offset 8 and is in the abbreviation set, yet
the candidate offset 10 is not blocked and is returned. -/
theorem claim_C1_code_behavior :
    pyStrip (pyToLower (pySlice c1text 7 8)) ∈ ABBREVIATIONS ∧
      is_abbreviation c1text 9 = false ∧
      find_sentence_boundaries SynTagRusPatterns.init c1text = [10] := by
  refine ⟨by decide, by decide, by decide⟩

/-- Claim C2 (counterexample): the claim asserts that on
`"Он родился в 1799 г. в Москве."` exactly one boundary is returned, at the
end of the full sentence (offset `c2text.length = 30`).  The code returns
no such singleton. -/
theorem claim_C2_counterexample :
    find_sentence_boundaries SynTagRusPatterns.init c2text ≠ [c2text.length] := by
  decide

/-- Claim C2 (amended): no boundary is placed immediately after `"г."`, and
in fact `find_sentence_boundaries` returns no boundaries at all on this
input: every rule pattern requires whitespace after the punctuation, so the
sentence-final period produces no candidate. -/
theorem claim_C2_amended :
    find_sentence_boundaries SynTagRusPatterns.init c2text = [] := by
  decide

/-- Claim C3 (counterexample): the claim asserts that on
`"А. С. Пушкин - великий русский поэт."` exactly one boundary is returned,
at the sentence's end (offset `c3text.length = 36`).  The code returns no
such singleton. -/
theorem claim_C3_counterexample :
    find_sentence_boundaries SynTagRusPatterns.init c3text ≠ [c3text.length] := by
  decide

/-- Claim C3 (amended): the candidates fired after `"А. "` (offset 3) and
`"С. "` (offset 6) are blocked by the initials context, and
`find_sentence_boundaries` returns no boundaries at all on this input
(there is no end-of-text candidate, as the patterns require trailing
whitespace). -/
theorem claim_C3_amended :
    find_sentence_boundaries SynTagRusPatterns.init c3text = [] ∧
      is_blocked_boundary c3text 3 = true ∧
      is_blocked_boundary c3text 6 = true := by
  refine ⟨by decide, by decide, by decide⟩

/-- Claim C4: `find_sentence_boundaries` is total by construction (it is a
Lean function on arbitrary `List Char`), always returns a strictly
ascending (hence duplicate-free) list of offsets, and returns `[]` on the
empty string. -/
theorem claim_C4 :
    (∀ text : List Char,
        List.Sorted (· < ·) (find_sentence_boundaries SynTagRusPatterns.init text) ∧
        (find_sentence_boundaries SynTagRusPatterns.init text).Nodup) ∧
      find_sentence_boundaries SynTagRusPatterns.init [] = [] := by
  refine ⟨fun text => ?_, by decide⟩
  rw [find_eq]
  refine ⟨sorted_sortedDedup _, ?_⟩
  exact (sorted_sortedDedup _).imp (fun h => Nat.ne_of_lt h)

/-- Claim C6: on `"Первое. Второе. Третье."` exactly the two boundaries 8
(immediately after `"Первое. "`) and 16 (immediately after `"Второе. "`)
are returned, and splitting at them yields the three sentences. -/
theorem claim_C6 :
    find_sentence_boundaries SynTagRusPatterns.init c6text = [8, 16] ∧
      split_by_boundaries c6text [8, 16] =
        ["Первое.".data, "Второе.".data, "Третье.".data] := by
  refine ⟨by decide, by decide⟩

/-- Claim C7: whenever the characters at `p - 1` and `p` are both decimal
digits, `_is_blocked_boundary` blocks `p` and `p` is absent from the result
of `find_sentence_boundaries`; in particular on
`"Число равно 3.14 и больше нуля."` no boundary at all is returned, so none
is placed inside `"3.14"`. -/
theorem claim_C7 :
    (∀ (text : List Char) (p : Nat) (a b : Char), 0 < p →
        text[p - 1]? = some a → text[p]? = some b →
        a.isDigit = true → b.isDigit = true →
        is_blocked_boundary text p = true ∧
          p ∉ find_sentence_boundaries SynTagRusPatterns.init text) ∧
      find_sentence_boundaries SynTagRusPatterns.init c7text = [] := by
  refine ⟨fun text p a b hp hpa hpb hda hdb => ?_, by decide⟩
  have hblk := blocked_of_digits text p a b hp hpa hpb hda hdb
  exact ⟨hblk, blocked_not_mem_find _ text p hblk⟩

/-- Witness for claim C7 at the concrete digit-digit junction inside
`"3.14"` (offset 15, between `'1'` and `'4'`). -/
theorem claim_C7_witness :
    is_blocked_boundary c7text 15 = true ∧
      15 ∉ find_sentence_boundaries SynTagRusPatterns.init c7text :=
  claim_C7.1 c7text 15 '1' '4' (by decide) (by decide) (by decide)
    (by decide) (by decide)

/-- Claim C9: every returned boundary `b` satisfies `0 < b ≤ length` and
the character at `b - 1` is whitespace (each rule pattern's match ends just
after a whitespace character), so a boundary never directly follows the
punctuation and never points past the end of the text. -/
theorem claim_C9 :
    ∀ (text : List Char) (b : Nat),
      b ∈ find_sentence_boundaries SynTagRusPatterns.init text →
      0 < b ∧ b ≤ text.length ∧
        ∃ c, text[b - 1]? = some c ∧ pyIsSpace c = true := by
  intro text b hmem
  obtain ⟨-, r, -, -, hfd⟩ := mem_find_sound _ text b hmem
  obtain ⟨st, hst, hm⟩ := finditerEnds_sound _ text b hfd
  obtain ⟨h1, h2, h3⟩ := rulePattern_end_spec r.pattern text st b hst hm
  exact ⟨by omega, h2, h3⟩

/-- Witness for claim C9: boundary 8 of `"Первое. Второе. Третье."`. -/
theorem claim_C9_witness :
    8 ∈ find_sentence_boundaries SynTagRusPatterns.init c6text ∧
      (0 < 8 ∧ 8 ≤ c6text.length ∧
        ∃ c, c6text[8 - 1]? = some c ∧ pyIsSpace c = true) :=
  ⟨by decide, claim_C9 c6text 8 (by decide)⟩

/-- Claim C8: the boundary scan is deterministic.  In this pure model two
calls on the same text are definitionally equal; the substantive content —
the result does not depend on the iteration order of the rule collection —
is proved as invariance under arbitrary permutation of the rule table. -/
theorem claim_C8 :
    ∀ (rules2 : List SegmentationRule) (text : List Char),
      rules2.Perm SynTagRusPatterns.init.rules →
      find_sentence_boundaries ⟨rules2⟩ text =
        find_sentence_boundaries SynTagRusPatterns.init text := by
  intro rules2 text hperm
  rw [find_eq, find_eq]
  refine sorted_ext _ _ (sorted_sortedDedup _) (sorted_sortedDedup _) ?_
  intro x
  rw [mem_sortedDedup, mem_sortedDedup, mem_candidatesAll, mem_candidatesAll]
  constructor
  · rintro ⟨r, hr, hc⟩
    exact ⟨r, (mem_sortRulesDesc _ r).mpr
      (hperm.mem_iff.mp ((mem_sortRulesDesc _ r).mp hr)), hc⟩
  · rintro ⟨r, hr, hc⟩
    exact ⟨r, (mem_sortRulesDesc _ r).mpr
      (hperm.mem_iff.mpr ((mem_sortRulesDesc _ r).mp hr)), hc⟩

/-- Witness for claim C8: the reversed rule table gives the same result on
a concrete text. -/
theorem claim_C8_witness :
    find_sentence_boundaries ⟨SynTagRusPatterns.init.rules.reverse⟩ c6text =
      find_sentence_boundaries SynTagRusPatterns.init c6text :=
  claim_C8 SynTagRusPatterns.init.rules.reverse c6text
    (List.reverse_perm SynTagRusPatterns.init.rules)

/-- Claim C10: with the module cache made explicit, the first call to
`get_syntagrus_patterns` constructs the engine and stores it, and every
later call returns exactly the cached instance, leaving the cache
unchanged (no new construction). -/
theorem claim_C10 :
    get_syntagrus_patterns none =
        (SynTagRusPatterns.init, some SynTagRusPatterns.init) ∧
      ∀ p : SynTagRusPatterns, get_syntagrus_patterns (some p) = (p, some p) :=
  ⟨rfl, fun _ => rfl⟩

/-- Claim C5: `get_quality_score` returns `0` on an empty boundary list,
otherwise `max 0 (1 - Σ penalties)` where each trimmed non-empty piece
contributes `0.1` (length < 3), `0.15` (starts lower-case) and `0.2`
(length < 10 with an abbreviation-plus-period match) additively; hence the
result always lies in `[0, 1]`.  Python floats are modelled as exact
rationals. -/
theorem claim_C5 :
    (∀ text : List Char, get_quality_score text [] = 0) ∧
      (∀ (text : List Char) (bs : List Nat),
        get_quality_score text bs =
          if bs = [] then 0
          else max 0 (1 - ((split_by_boundaries text bs).map quality_penalty).sum)) ∧
      (∀ (text : List Char) (bs : List Nat),
        0 ≤ get_quality_score text bs ∧ get_quality_score text bs ≤ 1) := by
  have hmain : ∀ (text : List Char) (bs : List Nat),
      get_quality_score text bs =
        if bs = [] then 0
        else max 0 (1 - ((split_by_boundaries text bs).map quality_penalty).sum) := by
    intro text bs
    by_cases hbs : bs = []
    · simp [get_quality_score, hbs]
    · unfold get_quality_score
      rw [if_neg hbs, if_neg hbs, penalty_foldl_eq, zero_add]
      have hmap : ((split_by_boundaries text bs).map fun sent =>
          quality_penalty (pyStrip sent)) = (split_by_boundaries text bs).map
            quality_penalty := by
        refine List.map_congr_left ?_
        intro s hs
        rw [split_mem_stripped text bs s hs]
      rw [hmap]
  refine ⟨fun text => by simp [get_quality_score], hmain, ?_⟩
  intro text bs
  rw [hmain]
  by_cases hbs : bs = []
  · rw [if_pos hbs]
    norm_num
  · rw [if_neg hbs]
    have hS : 0 ≤ ((split_by_boundaries text bs).map quality_penalty).sum := by
      refine List.sum_nonneg ?_
      intro x hx
      obtain ⟨s, -, rfl⟩ := List.mem_map.mp hx
      exact quality_penalty_nonneg s
    constructor
    · exact le_max_left 0 _
    · refine max_le (by norm_num) (by linarith)
